import Mathlib

/-!
Shallow embedding of the Action Graph Game (AGG) engine of
`src/games/agg/agg.cc` and a verification of its specification.

Numbers (`AggNumber`) are modelled as exact rationals, the spec's exact
arithmetic instantiation.  The configuration trie (`trie_map` /
`aggdistrib` / `aggpayoff`) is modelled as an association list kept in
lexicographic key order, matching the spec's description of the trie
(insert-or-add, iteration in key order, multiplication under per-position
composers, inner product with missing keys contributing zero); its own
implementation file is not among the staged sources.  Projection-function
variants are kept abstract where only their evaluation is passed around.
-/

namespace AGG

/-- A neighbor configuration: the integer vector keying a payoff table
(`config = std::vector<int>` in the source). -/
abbrev Config := List ℤ

/-- Lexicographic order on configuration keys: the key order in which the
`trie_map` stores and iterates entries. -/
def keyLt : Config → Config → Bool
  | [], [] => false
  | [], _ :: _ => true
  | _ :: _, [] => false
  | a :: as, b :: bs => if a < b then true else if b < a then false else keyLt as bs

/-- `trie_map<AggNumber>` (`aggdistrib`, `aggpayoff`): a finite map from
configurations to rationals, as an association list in `keyLt` order. -/
abbrev TrieMap := List (Config × ℚ)

/-- `trie_map::operator+=(pair)`: insert with weight accumulation. -/
def trieInsertAdd : TrieMap → Config × ℚ → TrieMap
  | [], kw => [kw]
  | (k0, w0) :: rest, (k, w) =>
    if keyLt k k0 then (k, w) :: (k0, w0) :: rest
    else if k = k0 then (k0, w0 + w) :: rest
    else (k0, w0) :: trieInsertAdd rest (k, w)

/-- `trie_map::find`: the weight stored at a key, if any. -/
def trieFind : TrieMap → Config → Option ℚ
  | [], _ => none
  | (k0, w0) :: rest, k => if k = k0 then some w0 else trieFind rest k

/-- The total weight stored in a distribution (sum of all values). -/
def totalWeight (d : TrieMap) : ℚ := (d.map fun kw => kw.2).sum

/-- The representation invariant of the trie model: entries strictly
ascending in key order. -/
def TrieSorted (d : TrieMap) : Prop := d.Pairwise fun a b => keyLt a.1 b.1 = true

/-- The per-position composition step of `trie_map::multiply`:
`k[i] = φ_i(ka[i], kb[i])` where `φ_i` is the neighbor composer at
position `i`. -/
def composeKey : List (ℤ → ℤ → ℤ) → Config → Config → Config
  | f :: fs, a :: as, b :: bs => f a b :: composeKey fs as bs
  | _, _, _ => []

/-- `trie_map::multiply(a, b, keylen, composers)`: for each entry of `a`
and each entry of `b`, add `w_a·w_b` at the composed key. -/
def trieMul (fs : List (ℤ → ℤ → ℤ)) (a b : TrieMap) : TrieMap :=
  a.foldl
    (fun acc ka =>
      b.foldl (fun acc2 kb => trieInsertAdd acc2 (composeKey fs ka.1 kb.1, ka.2 * kb.2)) acc)
    []

/-- `trie_map::inner_prod(U) = Σ_k a[k]·U[k]`; a key absent from `U`
contributes zero. -/
def trieInner (a U : TrieMap) : ℚ :=
  a.foldl (fun acc kw => acc + kw.2 * ((trieFind U kw.1).getD 0)) 0

/-- The fields of the game object `AGG` that the payoff oracle reads.
Per-player data is indexed by player number, per-node data by node index;
`projFunctions v` are the neighbor composers of action node `v` in their
binary-operation form (`proj_func::operator()(int,int)`), and
`Porder p a` is the multiplication order of players for `(p, a)`. -/
structure Game where
  numPlayers : ℕ
  actions : ℕ → ℕ
  actionSets : ℕ → ℕ → ℕ
  neighbors : ℕ → List ℕ
  projection : ℕ → ℕ → ℕ → Config
  projFunctions : ℕ → List (ℤ → ℤ → ℤ)
  payoffs : ℕ → TrieMap
  Porder : ℕ → ℕ → List ℕ

/-- `AGG::doProjection(Node, i, s)`: reset `projectedStrat[Node][i]`, then
for every action `j` of player `i` with `s[j] > 0` add the projection
vector of `j` with weight `s[j]`.  `s` is player `i`'s slice of the
profile. -/
def doProjection (g : Game) (node i : ℕ) (s : ℕ → ℚ) : TrieMap :=
  (List.range (g.actions i)).foldl
    (fun d j => if 0 < s j then trieInsertAdd d (g.projection node i j, s j) else d) []

/-- `AGG::computeP(player, act)` (without a forced second player):
`Pr[0]` holds player's own projection vector with weight 1, then for
`k = 1..n-1` multiply by the projected strategy of `Porder[player][act][k]`
under the node's composers.  `pstrat q` stands for
`projectedStrat[node][q]` as written by `doProjection`. -/
def computeP (g : Game) (player act : ℕ) (pstrat : ℕ → TrieMap) : TrieMap :=
  let node := g.actionSets player act
  ((g.Porder player act).drop 1).foldl
    (fun pr q => trieMul (g.projFunctions node) pr (pstrat q))
    (trieInsertAdd [] (g.projection node player act, 1))

/-- `AGG::getV(player, act, s)`: project the profile at the node of
`(player, act)`, run `computeP`, and take the inner product with the
node's payoff table.  `s` is the mixed profile, curried by player. -/
def getV (g : Game) (player act : ℕ) (s : ℕ → ℕ → ℚ) : ℚ :=
  let node := g.actionSets player act
  trieInner (computeP g player act (fun q => doProjection g node q (s q))) (g.payoffs node)

/-- `AGG::getMixedPayoff(player, s)`: sum `s[p,a]·getV(p,a,s)` over the
actions with strictly positive probability. -/
def getMixedPayoff (g : Game) (player : ℕ) (s : ℕ → ℕ → ℚ) : ℚ :=
  (List.range (g.actions player)).foldl
    (fun acc act =>
      if 0 < s player act then acc + s player act * getV g player act s else acc)
    0

/-- `AGG::getPurePayoff(player, s)`: fold the players' projection vectors
under the node's composers (players in index order, starting from player
0's vector) and look the configuration up; a missing configuration throws,
modelled by returning it as the error. -/
def getPurePayoff (g : Game) (player : ℕ) (sp : ℕ → ℕ) : Except Config ℚ :=
  let node := g.actionSets player (sp player)
  let key :=
    (List.range' 1 (g.numPlayers - 1)).foldl
      (fun c i => composeKey (g.projFunctions node) c (g.projection node i (sp i)))
      (g.projection node 0 (sp 0))
  match trieFind (g.payoffs node) key with
  | some v => Except.ok v
  | none => Except.error key

/-- The degenerate mixed profile of a pure profile `sp`: probability 1 on
`sp p` for each player `p`. -/
def indicator (sp : ℕ → ℕ) : ℕ → ℕ → ℚ := fun p a => if a = sp p then 1 else 0

/-- A profile with every non-positive entry replaced by 0 (what the
oracle's strict-positivity tests effectively read). -/
def clampProfile (s : ℕ → ℕ → ℚ) : ℕ → ℕ → ℚ := fun p a => if 0 < s p a then s p a else 0

/-- Insert `x` into a list before the first element `y` with `le x y`
false... (auxiliary step of the sorting model). -/
def insortOne {α : Type} (le : α → α → Bool) (x : α) : List α → List α
  | [] => [x]
  | y :: ys => if le x y then x :: y :: ys else y :: insortOne le x ys

/-- `std::sort`, modelled as insertion sort (any comparison sort; only the
sorted result is observable). -/
def insSort {α : Type} (le : α → α → Bool) : List α → List α
  | [] => []
  | x :: xs => insortOne le x (insSort le xs)

/-- `operator<=` on `std::pair<int,int>`: lexicographic. -/
def pairLe (a b : ℕ × ℕ) : Bool := decide (a.1 < b.1 ∨ (a.1 = b.1 ∧ a.2 ≤ b.2))

/-- `operator<=` on int. -/
def natLe (a b : ℕ) : Bool := decide (a ≤ b)

/-- `AGG::initPorder(Po, i, N, projS)`: pairs `(projS[k].size(), k)` for
every `k ≠ i`, sorted; `Po` is `i` followed by the second components. -/
def initPorder (i N : ℕ) (projS : ℕ → TrieMap) : List ℕ :=
  let order :=
    ((List.range N).filter fun k => k != i).map fun k => ((projS k).length, k)
  i :: (insSort pairLe order).map fun kv => kv.2

/-- The ascending-order validation of the `AGG::AGG` constructor (lines
63-74): for each player in turn, sort a copy of the action set and throw
the player index if it differs from the original. -/
def checkActionSets : List (List ℕ) → ℕ → Except ℕ Unit
  | [], _ => Except.ok ()
  | as :: rest, i =>
    if insSort natLe as = as then checkActionSets rest (i + 1) else Except.error i

/-- Errors of `AGG::makeMAPPINGpayoff`'s key bookkeeping: duplicate
specification of a key, or an acceptance-set key left unspecified. -/
inductive PayoffInputError where
  | overwrite (k : Config)
  | unspecified (k : Config)
deriving DecidableEq

/-- `trie_map::insert(pair)`: plain map insert that reports failure
(returns `none`) when the key is already bound, never overwriting. -/
def mapInsert : TrieMap → Config → ℚ → Option TrieMap
  | [], k, u => some [(k, u)]
  | (k0, u0) :: rest, k, u =>
    if keyLt k k0 then some ((k, u) :: (k0, u0) :: rest)
    else if k = k0 then none
    else (mapInsert rest k u).map fun r => (k0, u0) :: r

/-- The insertion loop of `AGG::makeMAPPINGpayoff`: insert each parsed
configuration-value pair; a failed insert throws the overwrite error. -/
def mappingInsertLoop : TrieMap → List (Config × ℚ) → Except PayoffInputError TrieMap
  | pay, [] => Except.ok pay
  | pay, (k, u) :: rest =>
    match mapInsert pay k u with
    | none => Except.error (PayoffInputError.overwrite k)
    | some pay2 => mappingInsertLoop pay2 rest

/-- The final check of `AGG::makeMAPPINGpayoff`: every key of the
precomputed table (`temp`) must now be bound. -/
def mappingCheckLoop (pay : TrieMap) : List (Config × ℚ) → Except PayoffInputError TrieMap
  | [] => Except.ok pay
  | (k, _) :: rest =>
    if trieFind pay k = none then Except.error (PayoffInputError.unspecified k)
    else mappingCheckLoop pay rest

/-- `AGG::makeMAPPINGpayoff`, after parsing: `accept` is the acceptance-set
table precomputed at setup (the function's `temp`, saved before `clear`),
`pairs` the parsed configuration-value list in input order. -/
def makeMAPPINGpayoff (accept : TrieMap) (pairs : List (Config × ℚ)) :
    Except PayoffInputError TrieMap :=
  match mappingInsertLoop [] pairs with
  | Except.error e => Except.error e
  | Except.ok pay => mappingCheckLoop pay accept

/-- First value bound to key `k` in a parsed pair list. -/
def pairsLookup : List (Config × ℚ) → Config → Option ℚ
  | [], _ => none
  | (k0, u0) :: rest, k => if k0 = k then some u0 else pairsLookup rest k

/-- Errors raised by `AGG::getAn`: a cycle of projected nodes at a node,
or a projection-type mismatch between a node and one of its neighbors. -/
inductive AnError where
  | cycleAt (n : ℕ)
  | mismatch (node neighbor : ℕ)
deriving DecidableEq

/-- The node indices an `AnError`'s message names. -/
def anErrorNames : AnError → List ℕ
  | AnError.cycleAt n => [n]
  | AnError.mismatch a b => [a, b]

mutual

/-- `AGG::getAn(dest, neighb, projTypes, S, Node, path)`: collect the
action-node ancestors of `Node` into a multiset, carrying the `path`
stack for cycle detection.  `pt i` is the projection type of function
node `S+i` (abstract; only equality is used).  The extra fuel argument
makes the recursion structural; `none` stands for fuel exhaustion. -/
def getAnAux {PT : Type} [DecidableEq PT] (S : ℕ) (neighb : ℕ → List ℕ) (pt : ℕ → PT) :
    ℕ → ℕ → List ℕ → Option (Except AnError (Multiset ℕ))
  | 0, _, _ => none
  | fuel + 1, node, path =>
    if node < S then some (Except.ok {node})
    else if node ∈ path then some (Except.error (AnError.cycleAt node))
    else getAnChildren S neighb pt fuel node (path ++ [node]) (neighb node)
termination_by fuel _ _ => (fuel, 0)

/-- The neighbor loop of `AGG::getAn`: check the projection-type signature
of each function-node neighbor against the current node's, then recurse,
accumulating ancestor multisets. -/
def getAnChildren {PT : Type} [DecidableEq PT] (S : ℕ) (neighb : ℕ → List ℕ) (pt : ℕ → PT) :
    ℕ → ℕ → List ℕ → List ℕ → Option (Except AnError (Multiset ℕ))
  | _, _, _, [] => some (Except.ok 0)
  | fuel, node, path, nb :: rest =>
    if S ≤ nb ∧ pt (nb - S) ≠ pt (node - S) then
      some (Except.error (AnError.mismatch node nb))
    else
      match getAnAux S neighb pt fuel nb path with
      | none => none
      | some (Except.error e) => some (Except.error e)
      | some (Except.ok m) =>
        match getAnChildren S neighb pt fuel node path rest with
        | none => none
        | some (Except.error e) => some (Except.error e)
        | some (Except.ok m2) => some (Except.ok (m + m2))
termination_by fuel _ _ l => (fuel, l.length + 1)

end

/-- One step of the neighbor walk `AGG::getAn` performs: from a function
node to one of its neighbors (action nodes have no successors in the
walk). -/
def stepRel (S : ℕ) (neighb : ℕ → List ℕ) (a b : ℕ) : Prop := S ≤ a ∧ b ∈ neighb a

/-- The inner loop of `AGG::setProjections` (lines 316-336): the
contribution vector of action `ASij = actionSets[i][j]` at action node
`node`, written entry by entry into a zero-initialised vector of length
`|N(node)|`.  `an g` is the ancestor multiset `getAn` collected for
function node `S+g`, and `feval` evaluates a projection type on a
multiset (`proj_func::operator()(multiset<int>&)`, kept abstract); the
sub-multiset passed is the `equal_range` copy: all ancestors equal to
`ASij`. -/
def projectionVector {PT : Type} (S : ℕ) (neighb : ℕ → List ℕ) (pt : ℕ → PT)
    (feval : PT → Multiset ℕ → ℤ) (an : ℕ → Multiset ℕ) (ASij node : ℕ) : Config :=
  (List.range (neighb node).length).foldl
    (fun c k =>
      let nb := (neighb node).getD k 0
      c.set k
        (if ASij = nb then 1
         else if S ≤ nb then
           feval (pt (nb - S)) (Multiset.replicate (Multiset.count ASij (an (nb - S))) ASij)
         else 0))
    (List.replicate (neighb node).length 0)

/-- `AGG::getMaxPayoff`: start from the first entry of action node 0's
table, then fold `max` over every entry of the tables of nodes
`1..numActionNodes-1`. -/
def getMaxPayoff (payoffs : ℕ → TrieMap) (numActionNodes : ℕ) : ℚ :=
  (List.range' 1 (numActionNodes - 1)).foldl
    (fun r i => (payoffs i).foldl (fun r2 kw => max r2 kw.2) r)
    (((payoffs 0).head?.map fun kw => kw.2).getD 0)

/-- `AGG::getMinPayoff`: same traversal with `min`. -/
def getMinPayoff (payoffs : ℕ → TrieMap) (numActionNodes : ℕ) : ℚ :=
  (List.range' 1 (numActionNodes - 1)).foldl
    (fun r i => (payoffs i).foldl (fun r2 kw => min r2 kw.2) r)
    (((payoffs 0).head?.map fun kw => kw.2).getD 0)

/-- Every payoff value of every action node's table. -/
def allPayoffValues (payoffs : ℕ → TrieMap) (numActionNodes : ℕ) : List ℚ :=
  (List.range numActionNodes).foldr (fun i acc => ((payoffs i).map fun kw => kw.2) ++ acc) []

/-- Fold of a binary operation over a nonempty list of configurations,
seeded with the head (the shape shared by the pure-payoff fold and the
singleton-trie multiplication chain). -/
def bigOpKey (op : Config → Config → Config) : List Config → Config
  | [] => []
  | x :: xs => xs.foldl op x

/-- Integer addition, the composer of an action-node neighbor. -/
def addF : ℤ → ℤ → ℤ := fun x y => x + y

/-- A concrete two-player game on two shared action nodes (both nodes see
both actions as neighbors), used to instantiate proved theorems. -/
def G1 : Game where
  numPlayers := 2
  actions := fun _ => 2
  actionSets := fun _ a => a
  neighbors := fun _ => [0, 1]
  projection := fun _ _ a => [if a = 0 then 1 else 0, if a = 1 then 1 else 0]
  projFunctions := fun _ => [addF, addF]
  payoffs := fun v => if v = 0 then [([1, 1], 0), ([2, 0], 2)] else [([0, 2], 1), ([1, 1], 0)]
  Porder := fun p _ => [p, 1 - p]

/-- The pure profile of `G1` in which both players play action 0. -/
def sp0 : ℕ → ℕ := fun _ => 0

/-- A profile for `G1` with a negative entry (an invalid mixed profile). -/
def snegG1 : ℕ → ℕ → ℚ := fun _ a => if a = 0 then 1 else -1

/-- The uniform profile for `G1`. -/
def shalfG1 : ℕ → ℕ → ℚ := fun _ _ => (1 : ℚ) / 2

/-- Neighbor lists of the `getAn` counterexample graph: `S = 0`, three
function nodes, `0 → {1, 2}`, `2 → 2` (a self-loop not through 0 or 1). -/
def cneighb : ℕ → List ℕ := fun n => if n = 0 then [1, 2] else if n = 2 then [2] else []

/-- Projection types of the counterexample graph: node 1's differs from
node 0's, nodes 0 and 2 agree. -/
def cpt : ℕ → ℕ := fun i => if i = 1 then 1 else 0

/-- Neighbor lists of a two-function-node cycle `0 → 1 → 0` (`S = 0`). -/
def wneighb : ℕ → List ℕ := fun n => if n = 0 then [1] else if n = 1 then [0] else []

/-- Payoff tables exhibiting the `getMaxPayoff`/`getMinPayoff` traversal
gap: node 0's table holds its extreme values away from its first entry. -/
def bugPayoffs : ℕ → TrieMap :=
  fun v => if v = 0 then [([0, 1], 0), ([1, 0], 5), ([2, 0], -5)] else [([0, 1], 0)]

end AGG

namespace AGG

theorem insortOne_perm {α : Type} (le : α → α → Bool) (x : α) :
    ∀ l : List α, (insortOne le x l).Perm (x :: l) := by
  intro l
  induction l with
  | nil => simp [insortOne]
  | cons y ys ih =>
    by_cases h : le x y = true
    · simp [insortOne, h]
    · simp only [insortOne, h, if_false]
      exact ((ih.cons y).trans (List.Perm.swap x y ys))

theorem insSort_perm {α : Type} (le : α → α → Bool) :
    ∀ l : List α, (insSort le l).Perm l := by
  intro l
  induction l with
  | nil => simp [insSort]
  | cons x xs ih => exact (insortOne_perm le x (insSort le xs)).trans (ih.cons x)

theorem insortOne_pairwise {α : Type} (le : α → α → Bool)
    (htrans : ∀ a b c, le a b = true → le b c = true → le a c = true)
    (htotal : ∀ a b, le a b = true ∨ le b a = true) (x : α) :
    ∀ l : List α, l.Pairwise (fun a b => le a b = true) →
      (insortOne le x l).Pairwise (fun a b => le a b = true) := by
  intro l
  induction l with
  | nil => intro _; simp [insortOne]
  | cons y ys ih =>
    intro h
    rw [List.pairwise_cons] at h
    obtain ⟨hy, hys⟩ := h
    by_cases hxy : le x y = true
    · simp only [insortOne, hxy, if_true]
      refine List.pairwise_cons.mpr ⟨?_, List.pairwise_cons.mpr ⟨hy, hys⟩⟩
      intro z hz
      rcases List.mem_cons.mp hz with rfl | hz
      · exact hxy
      · exact htrans x y z hxy (hy z hz)
    · simp only [insortOne, hxy, if_false]
      refine List.pairwise_cons.mpr ⟨?_, ih hys⟩
      intro z hz
      have hz2 : z ∈ x :: ys := (insortOne_perm le x ys).mem_iff.mp hz
      rcases List.mem_cons.mp hz2 with hzx | hz2
      · rw [hzx]
        rcases htotal x y with h1 | h1
        · exact absurd h1 hxy
        · exact h1
      · exact hy z hz2

theorem insSort_pairwise {α : Type} (le : α → α → Bool)
    (htrans : ∀ a b c, le a b = true → le b c = true → le a c = true)
    (htotal : ∀ a b, le a b = true ∨ le b a = true) :
    ∀ l : List α, (insSort le l).Pairwise (fun a b => le a b = true) := by
  intro l
  induction l with
  | nil => simp [insSort]
  | cons x xs ih => exact insortOne_pairwise le htrans htotal x _ ih

theorem insSort_eq_self {α : Type} (le : α → α → Bool) :
    ∀ l : List α, l.Pairwise (fun a b => le a b = true) → insSort le l = l := by
  intro l
  induction l with
  | nil => intro _; rfl
  | cons x xs ih =>
    intro h
    rw [List.pairwise_cons] at h
    obtain ⟨hx, hxs⟩ := h
    rw [insSort, ih hxs]
    cases xs with
    | nil => rfl
    | cons y ys => simp [insortOne, hx y (List.mem_cons_self y ys)]

theorem natLe_pairwise_iff (l : List ℕ) :
    l.Pairwise (fun a b => natLe a b = true) ↔ List.Sorted (· ≤ ·) l := by
  unfold List.Sorted
  constructor <;> intro h <;> exact h.imp (by simp [natLe])

/-- C7 counterexample input: the constructor accepts a repeated node index.
`checkActionSets` succeeds on the action set `[2, 2]`, which is not
strictly ascending. -/
theorem agg_duplicate_action_passes_check :
    checkActionSets [[2, 2]] 0 = Except.ok () ∧ ¬ List.Sorted (· < ·) ([2, 2] : List ℕ) := by
  constructor
  · rfl
  · decide

/-- C7 (amended): the constructor's validation succeeds exactly when every
player's action list is weakly ascending (sorted by `≤`); a strictly
descending pair is rejected, but a repeated node index passes. -/
theorem agg_ascending_check_iff_sorted (asl : List (List ℕ)) (i : ℕ) :
    checkActionSets asl i = Except.ok () ↔ ∀ l ∈ asl, List.Sorted (· ≤ ·) l := by
  induction asl generalizing i with
  | nil => simp [checkActionSets]
  | cons as rest ih =>
    by_cases h : insSort natLe as = as
    · have hsorted : List.Sorted (· ≤ ·) as := by
        rw [← natLe_pairwise_iff, ← h]
        exact insSort_pairwise natLe
          (fun a b c h1 h2 => by simp only [natLe, decide_eq_true_eq] at *; omega)
          (fun a b => by simp only [natLe, decide_eq_true_eq]; omega) as
      simp only [checkActionSets, h, if_true, ih (i + 1), List.mem_cons]
      constructor
      · rintro hall l (rfl | hl)
        · exact hsorted
        · exact hall l hl
      · intro hall l hl
        exact hall l (Or.inr hl)
    · simp only [checkActionSets, h, if_false]
      constructor
      · intro hcon; cases hcon
      · intro hall
        exfalso
        apply h
        apply insSort_eq_self
        rw [natLe_pairwise_iff]
        exact hall as (List.mem_cons_self as rest)

theorem pairLe_trans (a b c : ℕ × ℕ) (h1 : pairLe a b = true) (h2 : pairLe b c = true) :
    pairLe a c = true := by
  simp only [pairLe, decide_eq_true_eq] at *
  omega

theorem pairLe_total (a b : ℕ × ℕ) : pairLe a b = true ∨ pairLe b a = true := by
  simp only [pairLe, decide_eq_true_eq]
  omega

/-- C9: `initPorder(i, N, projS)` is a permutation of `[0, N)`, its first
element is `i`, and the remaining players appear in ascending order of
the size (number of keys) of their projected strategy. -/
theorem agg_initPorder_spec (i N : ℕ) (projS : ℕ → TrieMap) (h : i < N) :
    (initPorder i N projS).Perm (List.range N) ∧
      (initPorder i N projS).head? = some i ∧
      List.Sorted (· ≤ ·) ((initPorder i N projS).tail.map fun q => (projS q).length) := by
  set order := ((List.range N).filter fun k => k != i).map fun k => ((projS k).length, k)
    with horder
  have hmem : ∀ kv ∈ insSort pairLe order, kv.1 = ((projS kv.2).length : ℕ) := by
    intro kv hkv
    have : kv ∈ order := (insSort_perm pairLe order).mem_iff.mp hkv
    rw [horder] at this
    obtain ⟨k, _, rfl⟩ := List.mem_map.mp this
    rfl
  refine ⟨?_, ?_, ?_⟩
  · show (i :: (insSort pairLe order).map fun kv => kv.2).Perm (List.range N)
    have h1 : ((insSort pairLe order).map fun kv => kv.2).Perm
        ((List.range N).filter fun k => k != i) := by
      have h2 := (insSort_perm pairLe order).map fun kv : ℕ × ℕ => kv.2
      have h4 : order.map (fun kv : ℕ × ℕ => kv.2) = (List.range N).filter fun k => k != i := by
        rw [horder, List.map_map]
        have hcomp : ((fun kv : ℕ × ℕ => kv.2) ∘ fun k => ((projS k).length, k)) =
            fun k : ℕ => k := rfl
        rw [hcomp, List.map_id']
      rw [h4] at h2
      exact h2
    have h3 : (List.range N).Perm (i :: (List.range N).filter fun k => k != i) := by
      rw [← (List.nodup_range N).erase_eq_filter i]
      exact List.perm_cons_erase (List.mem_range.mpr h)
    exact (h1.cons i).trans h3.symm
  · rfl
  · show List.Sorted (· ≤ ·)
      (((insSort pairLe order).map fun kv => kv.2).map fun q => (projS q).length)
    rw [List.map_map]
    have hcg : (insSort pairLe order).map ((fun q => (projS q).length) ∘ fun kv : ℕ × ℕ => kv.2)
        = (insSort pairLe order).map fun kv => kv.1 := by
      apply List.map_congr_left
      intro kv hkv
      simp [Function.comp, hmem kv hkv]
    rw [hcg]
    unfold List.Sorted
    refine List.Pairwise.map _ ?_ (insSort_pairwise pairLe pairLe_trans pairLe_total order)
    intro a b hab
    simp only [pairLe, decide_eq_true_eq] at hab
    omega

/-- C9 witness: the specification of `initPorder` at a concrete input. -/
theorem agg_initPorder_spec_w :
    0 < 2 ∧
      ((initPorder 0 2 fun q => if q = 0 then [([1, 0], 1)] else
          [([0, 1], 1), ([1, 0], 1)]).Perm (List.range 2) ∧
        (initPorder 0 2 fun q => if q = 0 then [([1, 0], 1)] else
          [([0, 1], 1), ([1, 0], 1)]).head? = some 0 ∧
        List.Sorted (· ≤ ·) ((initPorder 0 2 fun q => if q = 0 then [([1, 0], 1)] else
          [([0, 1], 1), ([1, 0], 1)]).tail.map fun q =>
            ((if q = 0 then [([1, 0], 1)] else [([0, 1], 1), ([1, 0], 1)]) : TrieMap).length)) :=
  ⟨by decide, agg_initPorder_spec 0 2 _ (by decide)⟩

end AGG

namespace AGG

theorem keyLt_irrefl (k : Config) : keyLt k k = false := by
  induction k with
  | nil => rfl
  | cons a as ih => simp [keyLt, ih]

theorem keyLt_ne {a b : Config} (h : keyLt a b = true) : a ≠ b := by
  intro hab
  rw [hab, keyLt_irrefl] at h
  cases h

theorem keyLt_cons_iff {x y : ℤ} {xs ys : Config} :
    keyLt (x :: xs) (y :: ys) = true ↔ x < y ∨ (x = y ∧ keyLt xs ys = true) := by
  by_cases h1 : x < y
  · simp [keyLt, h1]
  · by_cases h2 : y < x
    · have hL : keyLt (x :: xs) (y :: ys) = false := by simp [keyLt, h1, h2]
      rw [hL]
      constructor
      · intro h; cases h
      · rintro (h | ⟨h, _⟩)
        · exact absurd h h1
        · exact absurd h (by omega)
    · have hxy : x = y := le_antisymm (not_lt.mp h2) (not_lt.mp h1)
      simp [keyLt, h1, h2, hxy]

theorem keyLt_total (a b : Config) : keyLt a b = true ∨ a = b ∨ keyLt b a = true := by
  induction a generalizing b with
  | nil =>
    cases b with
    | nil => exact Or.inr (Or.inl rfl)
    | cons y ys => exact Or.inl rfl
  | cons x xs ih =>
    cases b with
    | nil => exact Or.inr (Or.inr rfl)
    | cons y ys =>
      rcases lt_trichotomy x y with h | h | h
      · exact Or.inl (keyLt_cons_iff.mpr (Or.inl h))
      · subst h
        rcases ih ys with h2 | h2 | h2
        · exact Or.inl (keyLt_cons_iff.mpr (Or.inr ⟨rfl, h2⟩))
        · exact Or.inr (Or.inl (by rw [h2]))
        · exact Or.inr (Or.inr (keyLt_cons_iff.mpr (Or.inr ⟨rfl, h2⟩)))
      · exact Or.inr (Or.inr (keyLt_cons_iff.mpr (Or.inl h)))

theorem keyLt_trans {a b c : Config} (h1 : keyLt a b = true) (h2 : keyLt b c = true) :
    keyLt a c = true := by
  induction a generalizing b c with
  | nil =>
    cases b with
    | nil => cases h1
    | cons y ys =>
      cases c with
      | nil => cases h2
      | cons z zs => rfl
  | cons x xs ih =>
    cases b with
    | nil => cases h1
    | cons y ys =>
      cases c with
      | nil => cases h2
      | cons z zs =>
        rcases keyLt_cons_iff.mp h1 with hx | ⟨hx, hx2⟩ <;>
          rcases keyLt_cons_iff.mp h2 with hy | ⟨hy, hy2⟩
        · exact keyLt_cons_iff.mpr (Or.inl (lt_trans hx hy))
        · exact keyLt_cons_iff.mpr (Or.inl (by omega))
        · exact keyLt_cons_iff.mpr (Or.inl (by omega))
        · exact keyLt_cons_iff.mpr (Or.inr ⟨by omega, ih hx2 hy2⟩)

theorem trieFind_eq_none_of_lt (d : TrieMap) (k : Config)
    (h : ∀ kw ∈ d, keyLt k kw.1 = true) : trieFind d k = none := by
  induction d with
  | nil => rfl
  | cons kw0 rest ih =>
    obtain ⟨k0, u0⟩ := kw0
    have hne : k ≠ k0 := keyLt_ne (h (k0, u0) (List.mem_cons_self _ _))
    simp only [trieFind, hne, if_false]
    exact ih fun kw hkw => h kw (List.mem_cons_of_mem _ hkw)

theorem mapInsert_mem {pay pay2 : TrieMap} {k : Config} {u : ℚ}
    (h : mapInsert pay k u = some pay2) : ∀ kw ∈ pay2, kw ∈ pay ∨ kw = (k, u) := by
  induction pay generalizing pay2 with
  | nil =>
    simp only [mapInsert, Option.some.injEq] at h
    subst h
    intro kw hkw
    simp at hkw
    exact Or.inr hkw
  | cons kw0 rest ih =>
    obtain ⟨k0, u0⟩ := kw0
    simp only [mapInsert] at h
    by_cases h1 : keyLt k k0 = true
    · rw [if_pos h1] at h
      obtain rfl := Option.some.inj h
      intro kw hkw
      rcases List.mem_cons.mp hkw with rfl | hkw
      · exact Or.inr rfl
      · exact Or.inl hkw
    · rw [if_neg h1] at h
      by_cases h2 : k = k0
      · rw [if_pos h2] at h; cases h
      · rw [if_neg h2] at h
        obtain ⟨r, hr, rfl⟩ := Option.map_eq_some'.mp h
        intro kw hkw
        rcases List.mem_cons.mp hkw with rfl | hkw
        · exact Or.inl (List.mem_cons_self _ _)
        · rcases ih hr kw hkw with hin | heq
          · exact Or.inl (List.mem_cons_of_mem _ hin)
          · exact Or.inr heq

theorem mapInsert_sorted {pay pay2 : TrieMap} {k : Config} {u : ℚ} (hs : TrieSorted pay)
    (h : mapInsert pay k u = some pay2) : TrieSorted pay2 := by
  induction pay generalizing pay2 with
  | nil =>
    simp only [mapInsert, Option.some.injEq] at h
    subst h
    exact List.pairwise_singleton _ _
  | cons kw0 rest ih =>
    obtain ⟨k0, u0⟩ := kw0
    rw [TrieSorted, List.pairwise_cons] at hs
    obtain ⟨hk0, hrest⟩ := hs
    simp only [mapInsert] at h
    by_cases h1 : keyLt k k0 = true
    · rw [if_pos h1] at h
      obtain rfl := Option.some.inj h
      rw [TrieSorted, List.pairwise_cons]
      refine ⟨?_, List.pairwise_cons.mpr ⟨hk0, hrest⟩⟩
      intro kw hkw
      rcases List.mem_cons.mp hkw with rfl | hkw
      · exact h1
      · exact keyLt_trans h1 (hk0 kw hkw)
    · rw [if_neg h1] at h
      by_cases h2 : k = k0
      · rw [if_pos h2] at h; cases h
      · rw [if_neg h2] at h
        obtain ⟨r, hr, rfl⟩ := Option.map_eq_some'.mp h
        have hk0k : keyLt k0 k = true := by
          rcases keyLt_total k k0 with h3 | h3 | h3
          · exact absurd h3 h1
          · exact absurd h3 h2
          · exact h3
        rw [TrieSorted, List.pairwise_cons]
        refine ⟨?_, ih hrest hr⟩
        intro kw hkw
        rcases mapInsert_mem hr kw hkw with hin | heq
        · exact hk0 kw hin
        · rw [heq]; exact hk0k

theorem mapInsert_find {pay pay2 : TrieMap} {k : Config} {u : ℚ}
    (h : mapInsert pay k u = some pay2) (k2 : Config) :
    trieFind pay2 k2 = if k2 = k then some u else trieFind pay k2 := by
  induction pay generalizing pay2 with
  | nil =>
    simp only [mapInsert, Option.some.injEq] at h
    subst h
    simp [trieFind]
  | cons kw0 rest ih =>
    obtain ⟨k0, u0⟩ := kw0
    simp only [mapInsert] at h
    by_cases h1 : keyLt k k0 = true
    · rw [if_pos h1] at h
      obtain rfl := Option.some.inj h
      simp [trieFind]
    · rw [if_neg h1] at h
      by_cases h2 : k = k0
      · rw [if_pos h2] at h; cases h
      · rw [if_neg h2] at h
        obtain ⟨r, hr, rfl⟩ := Option.map_eq_some'.mp h
        by_cases h3 : k2 = k0
        · have h4 : ¬ k2 = k := by rw [h3]; exact fun hh => h2 hh.symm
          have h5 : ¬ k0 = k := fun hh => h2 hh.symm
          simp [trieFind, h3, h4, h5]
        · simp only [trieFind, h3, if_false]
          exact ih hr

theorem mapInsert_none_iff {pay : TrieMap} {k : Config} {u : ℚ} (hs : TrieSorted pay) :
    mapInsert pay k u = none ↔ trieFind pay k ≠ none := by
  induction pay with
  | nil => simp [mapInsert, trieFind]
  | cons kw0 rest ih =>
    obtain ⟨k0, u0⟩ := kw0
    rw [TrieSorted, List.pairwise_cons] at hs
    obtain ⟨hk0, hrest⟩ := hs
    simp only [mapInsert, trieFind]
    by_cases h1 : keyLt k k0 = true
    · have hne : ¬ k = k0 := keyLt_ne h1
      have hnone : trieFind rest k = none :=
        trieFind_eq_none_of_lt rest k fun kw hkw => keyLt_trans h1 (hk0 kw hkw)
      simp [h1, hne, hnone]
    · by_cases h2 : k = k0
      · simp [h1, h2, keyLt_irrefl]
      · simp only [h1, if_false, h2]
        constructor
        · intro hmap
          have hnone : mapInsert rest k u = none := by
            cases hm : mapInsert rest k u with
            | none => rfl
            | some r => rw [hm] at hmap; cases hmap
          exact (ih hrest).mp hnone
        · intro hne
          rw [(ih hrest).mpr hne]
          rfl

theorem pairsLookup_eq_none_of_not_mem {pairs : List (Config × ℚ)} {k : Config}
    (h : k ∉ pairs.map Prod.fst) : pairsLookup pairs k = none := by
  induction pairs with
  | nil => rfl
  | cons kw rest ih =>
    obtain ⟨k0, u0⟩ := kw
    simp only [List.map_cons, List.mem_cons] at h
    push_neg at h
    have hne : ¬ k0 = k := fun hh => h.1 hh.symm
    simp only [pairsLookup]
    rw [if_neg hne]
    exact ih h.2

theorem pairsLookup_ne_none_iff (pairs : List (Config × ℚ)) (k : Config) :
    pairsLookup pairs k ≠ none ↔ k ∈ pairs.map Prod.fst := by
  induction pairs with
  | nil => simp [pairsLookup]
  | cons kw rest ih =>
    obtain ⟨k0, u0⟩ := kw
    by_cases h : k0 = k
    · simp [pairsLookup, h]
    · simp only [pairsLookup, h, if_false, List.map_cons, List.mem_cons, ih]
      constructor
      · intro h2; exact Or.inr h2
      · rintro (h2 | h2)
        · exact absurd h2.symm h
        · exact h2

theorem pairsLookup_of_mem_nodup {pairs : List (Config × ℚ)} {kw : Config × ℚ}
    (hnd : (pairs.map Prod.fst).Nodup) (h : kw ∈ pairs) :
    pairsLookup pairs kw.1 = some kw.2 := by
  induction pairs with
  | nil => cases h
  | cons kw0 rest ih =>
    obtain ⟨k0, u0⟩ := kw0
    simp only [List.map_cons, List.nodup_cons] at hnd
    rcases List.mem_cons.mp h with rfl | h2
    · simp [pairsLookup]
    · have hne : k0 ≠ kw.1 := by
        intro hh
        exact hnd.1 (hh ▸ List.mem_map.mpr ⟨kw, h2, rfl⟩)
      simp only [pairsLookup, hne, if_false]
      exact ih hnd.2 h2

theorem mappingInsertLoop_ok_iff :
    ∀ (pairs : List (Config × ℚ)) (pay : TrieMap), TrieSorted pay →
      ((∃ pay2, mappingInsertLoop pay pairs = Except.ok pay2) ↔
        ((pairs.map Prod.fst).Nodup ∧ ∀ kw ∈ pairs, trieFind pay kw.1 = none)) := by
  intro pairs
  induction pairs with
  | nil => intro pay _; simp [mappingInsertLoop]
  | cons kw rest ih =>
    intro pay hs
    obtain ⟨k, u⟩ := kw
    simp only [mappingInsertLoop]
    cases hins : mapInsert pay k u with
    | none =>
      have hfind : trieFind pay k ≠ none := (mapInsert_none_iff hs).mp hins
      simp only [List.map_cons, List.nodup_cons]
      constructor
      · rintro ⟨pay2, hpay2⟩; cases hpay2
      · rintro ⟨_, hall⟩
        exact absurd (hall (k, u) (List.mem_cons_self _ _)) hfind
    | some pay1 =>
      have hfindk : trieFind pay k = none := by
        by_contra hne
        have hcon : mapInsert pay k u = none := (mapInsert_none_iff hs).mpr hne
        rw [hins] at hcon
        cases hcon
      have hs1 : TrieSorted pay1 := mapInsert_sorted hs hins
      rw [ih pay1 hs1]
      simp only [List.map_cons, List.nodup_cons]
      constructor
      · rintro ⟨hnd, hall⟩
        have hnotmem : k ∉ rest.map Prod.fst := by
          intro hmem
          obtain ⟨kw2, hkw2, hkeq⟩ := List.mem_map.mp hmem
          have := hall kw2 hkw2
          rw [mapInsert_find hins, hkeq, if_pos rfl] at this
          cases this
        refine ⟨⟨hnotmem, hnd⟩, ?_⟩
        intro kw2 hkw2
        rcases List.mem_cons.mp hkw2 with rfl | hkw2
        · exact hfindk
        · have := hall kw2 hkw2
          rw [mapInsert_find hins] at this
          by_cases hh : kw2.1 = k
          · rw [if_pos hh] at this; cases this
          · rw [if_neg hh] at this; exact this
      · rintro ⟨⟨hnotmem, hnd⟩, hall⟩
        refine ⟨hnd, ?_⟩
        intro kw2 hkw2
        rw [mapInsert_find hins]
        have hne : ¬ kw2.1 = k := by
          intro hh
          exact hnotmem (hh ▸ List.mem_map.mpr ⟨kw2, hkw2, rfl⟩)
        rw [if_neg hne]
        exact hall kw2 (List.mem_cons_of_mem _ hkw2)

theorem mappingInsertLoop_find :
    ∀ (pairs : List (Config × ℚ)) (pay pay2 : TrieMap),
      (pairs.map Prod.fst).Nodup → mappingInsertLoop pay pairs = Except.ok pay2 →
      ∀ k, trieFind pay2 k = (pairsLookup pairs k).or (trieFind pay k) := by
  intro pairs
  induction pairs with
  | nil =>
    intro pay pay2 _ h k
    obtain rfl : pay = pay2 := by
      simp only [mappingInsertLoop] at h
      exact Except.ok.inj h
    simp [pairsLookup]
  | cons kw rest ih =>
    intro pay pay2 hnd h k
    obtain ⟨k0, u0⟩ := kw
    simp only [mappingInsertLoop] at h
    cases hins : mapInsert pay k0 u0 with
    | none => rw [hins] at h; cases h
    | some pay1 =>
      rw [hins] at h
      simp only [List.map_cons, List.nodup_cons] at hnd
      have hrec := ih pay1 pay2 hnd.2 h k
      rw [hrec, mapInsert_find hins k]
      by_cases hk : k0 = k
      · subst hk
        rw [if_pos rfl]
        have : pairsLookup rest k0 = none :=
          pairsLookup_eq_none_of_not_mem hnd.1
        simp [pairsLookup, this]
      · have hk2 : ¬ k = k0 := fun hh => hk hh.symm
        simp [pairsLookup, hk, hk2]

theorem mappingCheckLoop_ok_iff (pay : TrieMap) :
    ∀ accept : List (Config × ℚ),
      ((∃ r, mappingCheckLoop pay accept = Except.ok r) ↔
        ∀ kw ∈ accept, trieFind pay kw.1 ≠ none) := by
  intro accept
  induction accept with
  | nil => simp [mappingCheckLoop]
  | cons kw rest ih =>
    obtain ⟨k0, u0⟩ := kw
    simp only [mappingCheckLoop]
    by_cases h : trieFind pay k0 = none
    · simp only [h, if_pos rfl]
      constructor
      · rintro ⟨r, hr⟩; cases hr
      · intro hall
        exact absurd h (hall (k0, u0) (List.mem_cons_self _ _))
    · rw [if_neg h]
      rw [ih]
      constructor
      · intro hall kw2 hkw2
        rcases List.mem_cons.mp hkw2 with rfl | hkw2
        · exact h
        · exact hall kw2 hkw2
      · intro hall kw2 hkw2
        exact hall kw2 (List.mem_cons_of_mem _ hkw2)

theorem mappingCheckLoop_ok_val {pay r : TrieMap} {accept : List (Config × ℚ)}
    (h : mappingCheckLoop pay accept = Except.ok r) : r = pay := by
  induction accept with
  | nil => exact (Except.ok.inj h).symm
  | cons kw rest ih =>
    obtain ⟨k0, u0⟩ := kw
    simp only [mappingCheckLoop] at h
    by_cases h2 : trieFind pay k0 = none
    · rw [if_pos h2] at h; cases h
    · rw [if_neg h2] at h; exact ih h

/-- C4 counterexample input: `makeMAPPINGpayoff` accepts an input that
binds key `[1]`, which is outside the acceptance set `{[0]}`, without
raising any error. -/
theorem agg_makeMAPPING_accepts_extra_key :
    makeMAPPINGpayoff [([0], 0)] [([0], 1), ([1], 2)] = Except.ok [([0], 1), ([1], 2)] ∧
      trieFind [([0], (0 : ℚ))] [1] = none :=
  ⟨rfl, rfl⟩

/-- C4 (amended): `makeMAPPINGpayoff` succeeds exactly when no key is
specified twice and every acceptance-set key is specified; a specified
key outside the acceptance set is accepted (and retained).  On success,
every specified key — in particular every acceptance-set key — is bound
to its given value. -/
theorem agg_makeMAPPING_amended (accept : TrieMap) (pairs : List (Config × ℚ)) :
    ((∃ pay, makeMAPPINGpayoff accept pairs = Except.ok pay) ↔
      ((pairs.map Prod.fst).Nodup ∧ ∀ kw ∈ accept, kw.1 ∈ pairs.map Prod.fst)) ∧
      (∀ pay, makeMAPPINGpayoff accept pairs = Except.ok pay →
        ∀ kw ∈ pairs, trieFind pay kw.1 = some kw.2) := by
  have hsorted : TrieSorted ([] : TrieMap) := List.Pairwise.nil
  constructor
  · rw [makeMAPPINGpayoff]
    cases hloop : mappingInsertLoop [] pairs with
    | error e =>
      have hno : ¬ ∃ pay2, mappingInsertLoop [] pairs = Except.ok pay2 := by
        rw [hloop]; rintro ⟨pay2, hpay2⟩; cases hpay2
      rw [mappingInsertLoop_ok_iff pairs [] hsorted] at hno
      constructor
      · rintro ⟨pay, hpay⟩; cases hpay
      · rintro ⟨hnd, _⟩
        exact absurd ⟨hnd, fun kw _ => rfl⟩ hno
    | ok pay1 =>
      have hok : ∃ pay2, mappingInsertLoop [] pairs = Except.ok pay2 := ⟨pay1, hloop⟩
      rw [mappingInsertLoop_ok_iff pairs [] hsorted] at hok
      have hnd := hok.1
      have hfind := mappingInsertLoop_find pairs [] pay1 hnd hloop
      constructor
      · intro hcheck
        refine ⟨hnd, ?_⟩
        intro kw hkw
        obtain ⟨pay, hpay⟩ := hcheck
        have hval := (mappingCheckLoop_ok_iff pay1 accept).mp ⟨pay, hpay⟩ kw hkw
        rw [hfind kw.1] at hval
        simp only [trieFind, Option.or_none] at hval
        exact (pairsLookup_ne_none_iff pairs kw.1).mp hval
      · rintro ⟨_, hall⟩
        rw [mappingCheckLoop_ok_iff pay1 accept]
        intro kw hkw
        rw [hfind kw.1]
        simp only [trieFind, Option.or_none]
        exact (pairsLookup_ne_none_iff pairs kw.1).mpr (hall kw hkw)
  · intro pay hpay kw hkw
    rw [makeMAPPINGpayoff] at hpay
    cases hloop : mappingInsertLoop [] pairs with
    | error e => rw [hloop] at hpay; cases hpay
    | ok pay1 =>
      rw [hloop] at hpay
      obtain rfl : pay = pay1 := mappingCheckLoop_ok_val hpay
      have hok : ∃ pay2, mappingInsertLoop [] pairs = Except.ok pay2 := ⟨pay, hloop⟩
      rw [mappingInsertLoop_ok_iff pairs [] hsorted] at hok
      have hfind := mappingInsertLoop_find pairs [] pay hok.1 hloop
      rw [hfind kw.1]
      simp only [trieFind, Option.or_none]
      exact pairsLookup_of_mem_nodup hok.1 hkw

end AGG

namespace AGG

theorem totalWeight_insert (d : TrieMap) (kw : Config × ℚ) :
    totalWeight (trieInsertAdd d kw) = totalWeight d + kw.2 := by
  obtain ⟨k, w⟩ := kw
  induction d with
  | nil => simp [trieInsertAdd, totalWeight]
  | cons kw0 rest ih =>
    obtain ⟨k0, w0⟩ := kw0
    simp only [trieInsertAdd]
    by_cases h1 : keyLt k k0 = true
    · rw [if_pos h1]
      simp only [totalWeight, List.map_cons, List.sum_cons]
      ring
    · rw [if_neg h1]
      by_cases h2 : k = k0
      · rw [if_pos h2]
        simp only [totalWeight, List.map_cons, List.sum_cons]
        ring
      · rw [if_neg h2]
        simp only [totalWeight, List.map_cons, List.sum_cons] at *
        rw [ih]
        ring

theorem list_map_range_sum (f : ℕ → ℚ) (n : ℕ) :
    ((List.range n).map f).sum = ∑ j in Finset.range n, f j := by
  induction n with
  | zero => simp
  | succ m ih =>
    rw [List.range_succ, List.map_append, List.sum_append, Finset.sum_range_succ, ih]
    simp

theorem doProjection_foldl_weight (s : ℕ → ℚ) (proj : ℕ → Config) :
    ∀ (l : List ℕ) (d0 : TrieMap),
      totalWeight
          (l.foldl (fun d j => if 0 < s j then trieInsertAdd d (proj j, s j) else d) d0) =
        totalWeight d0 + (l.map fun j => if 0 < s j then s j else 0).sum := by
  intro l
  induction l with
  | nil => intro d0; simp
  | cons j rest ih =>
    intro d0
    simp only [List.foldl_cons, List.map_cons, List.sum_cons]
    by_cases h : 0 < s j
    · rw [if_pos h, if_pos h, ih, totalWeight_insert]
      ring
    · rw [if_neg h, if_neg h, ih]
      ring

/-- C8: after `doProjection(v, p, s)` the total weight stored in
`projectedStrat[v][p]` is the sum of `s[p,a]` over all actions `a` of
player `p` (for a valid — componentwise nonnegative — strategy slice);
in particular it is 1 when `s[p]` is a probability distribution. -/
theorem agg_doProjection_total_weight (g : Game) (node i : ℕ) (s : ℕ → ℚ)
    (h : ∀ j < g.actions i, 0 ≤ s j) :
    totalWeight (doProjection g node i s) = ∑ j in Finset.range (g.actions i), s j := by
  rw [doProjection, doProjection_foldl_weight s (g.projection node i) (List.range (g.actions i)) []]
  rw [list_map_range_sum (fun j => if 0 < s j then s j else 0) (g.actions i)]
  have hz : totalWeight [] = 0 := rfl
  rw [hz, zero_add]
  refine Finset.sum_congr rfl ?_
  intro j hj
  by_cases hpos : 0 < s j
  · rw [if_pos hpos]
  · rw [if_neg hpos]
    have := h j (Finset.mem_range.mp hj)
    have : s j = 0 := le_antisymm (not_lt.mp hpos) this
    rw [this]

/-- C8 witness: the uniform half-half slice of `G1` has total projected
weight `1/2 + 1/2`. -/
theorem agg_doProjection_total_weight_w :
    (∀ j < G1.actions 0, (0 : ℚ) ≤ (fun _ => (1 : ℚ) / 2) j) ∧
      totalWeight (doProjection G1 0 0 fun _ => (1 : ℚ) / 2) =
        ∑ _j in Finset.range (G1.actions 0), (1 : ℚ) / 2 :=
  ⟨fun _ _ => by norm_num,
    agg_doProjection_total_weight G1 0 0 (fun _ => (1 : ℚ) / 2) fun _ _ => by norm_num⟩

theorem foldl_if_add (f : ℕ → ℚ) (c : ℕ → Prop) [DecidablePred c] :
    ∀ (l : List ℕ) (init : ℚ),
      l.foldl (fun acc a => if c a then acc + f a else acc) init =
        init + (l.map fun a => if c a then f a else 0).sum := by
  intro l
  induction l with
  | nil => intro init; simp
  | cons a rest ih =>
    intro init
    simp only [List.foldl_cons, List.map_cons, List.sum_cons]
    by_cases h : c a
    · rw [if_pos h, if_pos h, ih]
      ring
    · rw [if_neg h, if_neg h, ih]
      ring

/-- C2: `getMixedPayoff(p, s)` equals the full sum `Σ_a s[p,a]·getV(p,a,s)`
for a valid (componentwise nonnegative) profile, although the
implementation skips actions with non-positive probability: skipped
actions have probability exactly 0 and contribute nothing. -/
theorem agg_getMixedPayoff_sum (g : Game) (p : ℕ) (s : ℕ → ℕ → ℚ)
    (h : ∀ a < g.actions p, 0 ≤ s p a) :
    getMixedPayoff g p s = ∑ a in Finset.range (g.actions p), s p a * getV g p a s := by
  rw [getMixedPayoff,
    foldl_if_add (fun act => s p act * getV g p act s) (fun act => 0 < s p act), zero_add,
    list_map_range_sum]
  refine Finset.sum_congr rfl ?_
  intro a ha
  by_cases hpos : 0 < s p a
  · rw [if_pos hpos]
  · rw [if_neg hpos]
    have hz : s p a = 0 := le_antisymm (not_lt.mp hpos) (h a (Finset.mem_range.mp ha))
    rw [hz, zero_mul]

/-- C2 witness: the identity at the uniform profile of `G1`. -/
theorem agg_getMixedPayoff_sum_w :
    (∀ a < G1.actions 0, (0 : ℚ) ≤ shalfG1 0 a) ∧
      getMixedPayoff G1 0 shalfG1 =
        ∑ a in Finset.range (G1.actions 0), shalfG1 0 a * getV G1 0 a shalfG1 :=
  ⟨fun _ _ => by norm_num [shalfG1],
    agg_getMixedPayoff_sum G1 0 shalfG1 fun _ _ => by norm_num [shalfG1]⟩

theorem doProjection_clamp (g : Game) (node i : ℕ) (s : ℕ → ℕ → ℚ) :
    doProjection g node i (clampProfile s i) = doProjection g node i (s i) := by
  rw [doProjection, doProjection]
  congr 1
  funext d j
  by_cases h : 0 < s i j
  · have h2 : clampProfile s i j = s i j := if_pos h
    rw [h2]
  · have h2 : clampProfile s i j = 0 := if_neg h
    rw [h2]
    rw [if_neg h, if_neg (lt_irrefl (0 : ℚ))]

theorem getV_clamp (g : Game) (p act : ℕ) (s : ℕ → ℕ → ℚ) :
    getV g p act (clampProfile s) = getV g p act s := by
  have hf : (fun q => doProjection g (g.actionSets p act) q (clampProfile s q)) =
      fun q => doProjection g (g.actionSets p act) q (s q) :=
    funext fun q => doProjection_clamp g (g.actionSets p act) q s
  simp only [getV]
  rw [hf]

/-- C5 (amended): the oracle performs no validation of the profile: no
error is raised on a profile with negative entries; every non-positive
entry is skipped, so `getV` and `getMixedPayoff` return the value they
would return on the profile with those entries replaced by 0.  (A
dimension mismatch is an out-of-bounds memory access in the source, not
a raised error; it has no defined value to state.) -/
theorem agg_oracle_no_validation (g : Game) (p : ℕ) (s : ℕ → ℕ → ℚ) :
    (∀ act, getV g p act (clampProfile s) = getV g p act s) ∧
      getMixedPayoff g p (clampProfile s) = getMixedPayoff g p s := by
  refine ⟨fun act => getV_clamp g p act s, ?_⟩
  rw [getMixedPayoff, getMixedPayoff]
  congr 1
  funext acc act
  by_cases h : 0 < s p act
  · have h2 : clampProfile s p act = s p act := if_pos h
    rw [h2, getV_clamp]
  · have h2 : clampProfile s p act = 0 := if_neg h
    rw [h2]
    rw [if_neg h, if_neg (lt_irrefl (0 : ℚ))]

/-- C5 counterexample input: on `G1` with the invalid profile `snegG1`
(probability −1 on each player's second action) the oracle raises
nothing and returns the payoff value 2, silently skipping the negative
entries. -/
theorem agg_negative_profile_returns_value :
    getMixedPayoff G1 0 snegG1 = 2 ∧ snegG1 0 1 < 0 := by
  constructor
  · norm_num [getMixedPayoff, getV, computeP, doProjection, trieMul, trieInner, trieInsertAdd,
      trieFind, composeKey, G1, snegG1, keyLt, List.range_succ, addF]
  · norm_num [snegG1]

end AGG

namespace AGG

/-- C10 evidence: on `bugPayoffs` (two action nodes; node 0's table holds
5 and −5 away from its first entry) `getMaxPayoff` returns 0 although 5
is a payoff value, and `getMinPayoff` returns 0 although −5 is: the
loops start at node 1 and visit only the first entry of node 0's
table. -/
theorem agg_getMaxPayoff_bug :
    getMaxPayoff bugPayoffs 2 = 0 ∧ getMinPayoff bugPayoffs 2 = 0 ∧
      (5 : ℚ) ∈ allPayoffValues bugPayoffs 2 ∧ (-5 : ℚ) ∈ allPayoffValues bugPayoffs 2 ∧
      ¬ ((5 : ℚ) ≤ 0) ∧ ¬ ((0 : ℚ) ≤ -5) := by
  refine ⟨rfl, rfl, by decide, by decide, by norm_num, by norm_num⟩

theorem foldl_set_length (f : ℕ → ℤ) :
    ∀ (l : List ℕ) (init : List ℤ),
      (l.foldl (fun c j => c.set j (f j)) init).length = init.length := by
  intro l
  induction l with
  | nil => intro init; rfl
  | cons j rest ih =>
    intro init
    rw [List.foldl_cons, ih, List.length_set]

theorem foldl_set_getD (f : ℕ → ℤ) :
    ∀ (m : ℕ) (init : List ℤ) (k : ℕ), k < m → m ≤ init.length →
      ((List.range m).foldl (fun c j => c.set j (f j)) init).getD k 0 = f k := by
  intro m
  induction m with
  | zero => intro init k hk _; omega
  | succ m ih =>
    intro init k hk hlen
    rw [List.range_succ, List.foldl_append, List.foldl_cons, List.foldl_nil]
    have hplen : ((List.range m).foldl (fun c j => c.set j (f j)) init).length =
        init.length := foldl_set_length f (List.range m) init
    by_cases hkm : k = m
    · subst hkm
      rw [List.getD_eq_getElem?_getD, List.getElem?_set_self (by omega)]
      rfl
    · have hk2 : k < m := by omega
      rw [List.getD_eq_getElem?_getD, List.getElem?_set_ne (fun hh => hkm hh.symm),
        ← List.getD_eq_getElem?_getD]
      exact ih init k hk2 (by omega)

/-- C3: the projection tensor entry computed by `setProjections` is 1
when the action equals the neighbor, the projection function of the
neighbor applied to the sub-multiset of its action-node ancestors equal
to the action when the neighbor is a function node, and 0 otherwise. -/
theorem agg_projection_entry_spec {PT : Type} (S : ℕ) (neighb : ℕ → List ℕ) (pt : ℕ → PT)
    (feval : PT → Multiset ℕ → ℤ) (an : ℕ → Multiset ℕ) (ASij node k : ℕ)
    (hk : k < (neighb node).length) :
    (projectionVector S neighb pt feval an ASij node).getD k 0 =
      (if ASij = (neighb node).getD k 0 then 1
       else if S ≤ (neighb node).getD k 0 then
         feval (pt ((neighb node).getD k 0 - S))
           (Multiset.filter (fun y => y = ASij) (an ((neighb node).getD k 0 - S)))
       else 0) := by
  rw [projectionVector,
    foldl_set_getD _ ((neighb node).length) (List.replicate (neighb node).length 0) k hk
      (by rw [List.length_replicate])]
  rw [Multiset.filter_eq']

/-- C3 witness: a function-node neighbor position on a concrete graph
with two identical ancestors of the function node. -/
theorem agg_projection_entry_spec_w :
    1 < ((fun n : ℕ => if n = 0 then [0, 1] else []) 0).length ∧
      (projectionVector 1 (fun n => if n = 0 then [0, 1] else []) (fun _ => (0 : ℕ))
          (fun _ m => (Multiset.card m : ℤ)) (fun _ => ({0, 0} : Multiset ℕ)) 0 0).getD 1 0 =
        (if (0 : ℕ) = ((fun n : ℕ => if n = 0 then [0, 1] else []) 0).getD 1 0 then 1
         else if 1 ≤ ((fun n : ℕ => if n = 0 then [0, 1] else []) 0).getD 1 0 then
           (fun (_ : ℕ) (m : Multiset ℕ) => (Multiset.card m : ℤ)) 
             ((fun _ : ℕ => (0 : ℕ)) (((fun n : ℕ => if n = 0 then [0, 1] else []) 0).getD 1 0 - 1))
             (Multiset.filter (fun y => y = 0)
               ((fun _ : ℕ => ({0, 0} : Multiset ℕ))
                 (((fun n : ℕ => if n = 0 then [0, 1] else []) 0).getD 1 0 - 1)))
         else 0) :=
  ⟨by decide,
    agg_projection_entry_spec 1 (fun n => if n = 0 then [0, 1] else []) (fun _ => (0 : ℕ))
      (fun _ m => (Multiset.card m : ℤ)) (fun _ => ({0, 0} : Multiset ℕ)) 0 0 1 (by decide)⟩

end AGG

namespace AGG

theorem getAn_term_aux {PT : Type} [DecidableEq PT] (S P : ℕ) (neighb : ℕ → List ℕ)
    (pt : ℕ → PT) (hwf : ∀ n m, m ∈ neighb n → m < S + P) :
    ∀ fuel node path, node < S + P → path.Nodup → (∀ x ∈ path, S ≤ x ∧ x < S + P) →
      P + 1 ≤ fuel + path.length → getAnAux S neighb pt fuel node path ≠ none := by
  intro fuel
  induction fuel with
  | zero =>
    intro node path _ hnd hbounds hge
    exfalso
    have hsub : path.toFinset ⊆ Finset.Ico S (S + P) := by
      intro x hx
      rw [List.mem_toFinset] at hx
      exact Finset.mem_Ico.mpr (hbounds x hx)
    have hcard : path.toFinset.card = path.length := List.toFinset_card_of_nodup hnd
    have hle : path.length ≤ P := by
      have := Finset.card_le_card hsub
      rw [hcard, Nat.card_Ico] at this
      omega
    omega
  | succ fuel ih =>
    intro node path hnode hnd hbounds hge
    simp only [getAnAux]
    by_cases h1 : node < S
    · simp [h1]
    · rw [if_neg h1]
      by_cases h2 : node ∈ path
      · simp [h2]
      · rw [if_neg h2]
        have hnd2 : (path ++ [node]).Nodup := by
          rw [List.nodup_append]
          exact ⟨hnd, List.nodup_singleton node, by simpa using h2⟩
        have hbounds2 : ∀ x ∈ path ++ [node], S ≤ x ∧ x < S + P := by
          intro x hx
          rcases List.mem_append.mp hx with hx | hx
          · exact hbounds x hx
          · have : x = node := by simpa using hx
            subst this
            exact ⟨not_lt.mp h1, hnode⟩
        have hge2 : P + 1 ≤ fuel + (path ++ [node]).length := by
          rw [List.length_append, List.length_singleton]
          omega
        have hchild : ∀ l : List ℕ, (∀ nb ∈ l, nb < S + P) →
            getAnChildren S neighb pt fuel node (path ++ [node]) l ≠ none := by
          intro l
          induction l with
          | nil => intro _; simp [getAnChildren]
          | cons nb rest ihl =>
            intro hl
            simp only [getAnChildren]
            by_cases hmis : S ≤ nb ∧ pt (nb - S) ≠ pt (node - S)
            · simp [hmis]
            · rw [if_neg hmis]
              have hrec := ih nb (path ++ [node]) (hl nb (List.mem_cons_self _ _)) hnd2
                hbounds2 hge2
              cases hx : getAnAux S neighb pt fuel nb (path ++ [node]) with
              | none => exact absurd hx hrec
              | some r =>
                cases r with
                | error e => simp
                | ok m =>
                  have hrest := ihl fun nb2 h => hl nb2 (List.mem_cons_of_mem _ h)
                  cases hy : getAnChildren S neighb pt fuel node (path ++ [node]) rest with
                  | none => exact absurd hy hrest
                  | some r2 => cases r2 <;> simp
        exact hchild (neighb node) fun nb h => hwf node nb h

theorem getAn_cycle_sound {PT : Type} [DecidableEq PT] (S : ℕ) (neighb : ℕ → List ℕ)
    (pt : ℕ → PT) :
    ∀ fuel node path n,
      (∀ x ∈ path, Relation.TransGen (stepRel S neighb) x node) →
      getAnAux S neighb pt fuel node path = some (Except.error (AnError.cycleAt n)) →
      Relation.TransGen (stepRel S neighb) n n := by
  intro fuel
  induction fuel with
  | zero =>
    intro node path n _ h
    simp [getAnAux] at h
  | succ fuel ih =>
    intro node path n hinv h
    simp only [getAnAux] at h
    by_cases h1 : node < S
    · rw [if_pos h1] at h; simp at h
    · rw [if_neg h1] at h
      have hnodeS : S ≤ node := not_lt.mp h1
      by_cases h2 : node ∈ path
      · rw [if_pos h2] at h
        simp only [Option.some.injEq] at h
        have hn : AnError.cycleAt node = AnError.cycleAt n := Except.error.inj h
        obtain rfl : node = n := by cases hn; rfl
        exact hinv node h2
      · rw [if_neg h2] at h
        have hchild : ∀ l : List ℕ,
            (∀ nb ∈ l, ∀ x ∈ path ++ [node], Relation.TransGen (stepRel S neighb) x nb) →
            getAnChildren S neighb pt fuel node (path ++ [node]) l =
              some (Except.error (AnError.cycleAt n)) →
            Relation.TransGen (stepRel S neighb) n n := by
          intro l
          induction l with
          | nil => intro _ hcon; simp [getAnChildren] at hcon
          | cons nb rest ihl =>
            intro hedges hcon
            simp only [getAnChildren] at hcon
            by_cases hmis : S ≤ nb ∧ pt (nb - S) ≠ pt (node - S)
            · rw [if_pos hmis] at hcon; simp at hcon
            · rw [if_neg hmis] at hcon
              cases hx : getAnAux S neighb pt fuel nb (path ++ [node]) with
              | none => rw [hx] at hcon; simp at hcon
              | some r =>
                rw [hx] at hcon
                cases r with
                | error e =>
                  simp only [Option.some.injEq] at hcon
                  obtain rfl : e = AnError.cycleAt n := Except.error.inj hcon
                  exact ih nb (path ++ [node]) n
                    (hedges nb (List.mem_cons_self _ _)) hx
                | ok m =>
                  cases hy : getAnChildren S neighb pt fuel node (path ++ [node]) rest with
                  | none => rw [hy] at hcon; simp at hcon
                  | some r2 =>
                    rw [hy] at hcon
                    cases r2 with
                    | error e2 =>
                      simp only [Option.some.injEq] at hcon
                      obtain rfl : e2 = AnError.cycleAt n := Except.error.inj hcon
                      exact ihl (fun nb2 hnb2 => hedges nb2 (List.mem_cons_of_mem _ hnb2)) hy
                    | ok m2 => simp at hcon
        apply hchild (neighb node) ?_ h
        intro nb hnb x hx
        have hstep : stepRel S neighb node nb := ⟨hnodeS, hnb⟩
        rcases List.mem_append.mp hx with hx | hx
        · exact (hinv x hx).trans (Relation.TransGen.single hstep)
        · have : x = node := by simpa using hx
          subst this
          exact Relation.TransGen.single hstep

end AGG

namespace AGG

theorem getAnChildren_ok_forall {PT : Type} [DecidableEq PT] (S : ℕ) (neighb : ℕ → List ℕ)
    (pt : ℕ → PT) :
    ∀ (l : List ℕ) (fuel node : ℕ) (path : List ℕ) (m : Multiset ℕ),
      getAnChildren S neighb pt fuel node path l = some (Except.ok m) →
      ∀ nb ∈ l, ∃ m2, getAnAux S neighb pt fuel nb path = some (Except.ok m2) := by
  intro l
  induction l with
  | nil => intro fuel node path m _ nb hnb; cases hnb
  | cons nb0 rest ih =>
    intro fuel node path m h nb hnb
    simp only [getAnChildren] at h
    by_cases hmis : S ≤ nb0 ∧ pt (nb0 - S) ≠ pt (node - S)
    · rw [if_pos hmis] at h; simp at h
    · rw [if_neg hmis] at h
      cases hx : getAnAux S neighb pt fuel nb0 path with
      | none => rw [hx] at h; simp at h
      | some r =>
        rw [hx] at h
        cases r with
        | error e => simp at h
        | ok m1 =>
          cases hy : getAnChildren S neighb pt fuel node path rest with
          | none => rw [hy] at h; simp at h
          | some r2 =>
            rw [hy] at h
            cases r2 with
            | error e2 => simp at h
            | ok m2 =>
              rcases List.mem_cons.mp hnb with rfl | hnb
              · exact ⟨m1, hx⟩
              · exact ih fuel node path m2 hy nb hnb

theorem getAnAux_ok_next {PT : Type} [DecidableEq PT] (S : ℕ) (neighb : ℕ → List ℕ)
    (pt : ℕ → PT) {fuel node : ℕ} {path : List ℕ} {m : Multiset ℕ} (hS : S ≤ node)
    (h : getAnAux S neighb pt fuel node path = some (Except.ok m)) :
    ∃ fuel2, fuel = fuel2 + 1 ∧ node ∉ path ∧
      ∀ nb ∈ neighb node,
        ∃ m2, getAnAux S neighb pt fuel2 nb (path ++ [node]) = some (Except.ok m2) := by
  cases fuel with
  | zero => simp [getAnAux] at h
  | succ fuel2 =>
    simp only [getAnAux] at h
    rw [if_neg (not_lt.mpr hS)] at h
    by_cases h2 : node ∈ path
    · rw [if_pos h2] at h; simp at h
    · rw [if_neg h2] at h
      exact ⟨fuel2, rfl, h2,
        getAnChildren_ok_forall S neighb pt (neighb node) fuel2 node (path ++ [node]) m h⟩

theorem getAnAux_ok_reach {PT : Type} [DecidableEq PT] (S : ℕ) (neighb : ℕ → List ℕ)
    (pt : ℕ → PT) {node y : ℕ} (hreach : Relation.ReflTransGen (stepRel S neighb) node y) :
    ∀ fuel (path : List ℕ) (m : Multiset ℕ),
      getAnAux S neighb pt fuel node path = some (Except.ok m) →
      ∃ fuel2 path2 m2, path.IsPrefix path2 ∧
        getAnAux S neighb pt fuel2 y path2 = some (Except.ok m2) := by
  induction hreach using Relation.ReflTransGen.head_induction_on with
  | refl => intro fuel path m h; exact ⟨fuel, path, m, List.prefix_refl path, h⟩
  | head hstep hrest ih =>
    intro fuel path m hok
    obtain ⟨fuel2, rfl, _, hnext⟩ := getAnAux_ok_next S neighb pt hstep.1 hok
    obtain ⟨m2, hm2⟩ := hnext _ hstep.2
    obtain ⟨fuel3, path3, m3, hpre, hok3⟩ := ih fuel2 (path ++ [_]) m2 hm2
    exact ⟨fuel3, path3, m3, (List.prefix_append path _).trans hpre, hok3⟩

theorem getAnAux_cycle_not_ok {PT : Type} [DecidableEq PT] (S : ℕ) (neighb : ℕ → List ℕ)
    (pt : ℕ → PT) {y : ℕ} (hcyc : Relation.TransGen (stepRel S neighb) y y) :
    ∀ fuel (path : List ℕ) (m : Multiset ℕ),
      getAnAux S neighb pt fuel y path = some (Except.ok m) → False := by
  intro fuel path m hok
  obtain ⟨z, hyz, hzy⟩ := Relation.TransGen.head'_iff.mp hcyc
  obtain ⟨fuel2, rfl, _, hnext⟩ := getAnAux_ok_next S neighb pt hyz.1 hok
  obtain ⟨m2, hm2⟩ := hnext z hyz.2
  obtain ⟨fuel3, path3, m3, hpre, hok3⟩ := getAnAux_ok_reach S neighb pt hzy fuel2
    (path ++ [y]) m2 hm2
  have hymem : y ∈ path3 := hpre.subset (List.mem_append.mpr (Or.inr (List.mem_singleton.mpr rfl)))
  cases fuel3 with
  | zero => simp [getAnAux] at hok3
  | succ fuel4 =>
    simp only [getAnAux] at hok3
    rw [if_neg (not_lt.mpr hyz.1), if_pos hymem] at hok3
    simp at hok3

theorem getAn_no_mismatch {PT : Type} [DecidableEq PT] (S : ℕ) (neighb : ℕ → List ℕ)
    (pt : ℕ → PT) (hpt : ∀ i j, pt i = pt j) :
    ∀ fuel node path a b,
      getAnAux S neighb pt fuel node path ≠ some (Except.error (AnError.mismatch a b)) := by
  intro fuel
  induction fuel with
  | zero => intro node path a b; simp [getAnAux]
  | succ fuel ih =>
    intro node path a b
    simp only [getAnAux]
    by_cases h1 : node < S
    · simp [h1]
    · rw [if_neg h1]
      by_cases h2 : node ∈ path
      · simp [h2]
      · rw [if_neg h2]
        have hchild : ∀ l, getAnChildren S neighb pt fuel node (path ++ [node]) l ≠
            some (Except.error (AnError.mismatch a b)) := by
          intro l
          induction l with
          | nil => simp [getAnChildren]
          | cons nb rest ihl =>
            simp only [getAnChildren]
            have hmis : ¬ (S ≤ nb ∧ pt (nb - S) ≠ pt (node - S)) := by
              rintro ⟨_, hne⟩
              exact hne (hpt _ _)
            rw [if_neg hmis]
            cases hx : getAnAux S neighb pt fuel nb (path ++ [node]) with
            | none => simp
            | some r =>
              cases r with
              | error e =>
                intro hcon
                simp only [Option.some.injEq] at hcon
                obtain rfl := Except.error.inj hcon
                exact ih nb (path ++ [node]) a b hx
              | ok m =>
                cases hy : getAnChildren S neighb pt fuel node (path ++ [node]) rest with
                | none => simp
                | some r2 =>
                  cases r2 with
                  | error e2 =>
                    intro hcon
                    simp only [Option.some.injEq] at hcon
                    obtain rfl := Except.error.inj hcon
                    exact ihl hy
                  | ok m2 => simp
        exact hchild (neighb node)

/-- C6 (amended): on every well-formed graph the ancestor walk terminates
(no fuel exhaustion at fuel `P+1`), cyclic or not; and when all
projection types agree and a cycle among function nodes is reachable
from the starting node, it raises the cycle error naming a node that
lies on a cycle.  (With mismatched projection types, a type-mismatch
error — naming nodes possibly off the cycle — may be raised instead.) -/
theorem agg_getAn_amended {PT : Type} [DecidableEq PT] (S P : ℕ) (neighb : ℕ → List ℕ)
    (pt : ℕ → PT) (start : ℕ) (hwf : ∀ n m, m ∈ neighb n → m < S + P)
    (hstart : start < S + P) :
    getAnAux S neighb pt (P + 1) start [] ≠ none ∧
      ((∀ i j, pt i = pt j) →
        ∀ y, Relation.ReflTransGen (stepRel S neighb) start y →
          Relation.TransGen (stepRel S neighb) y y →
          ∃ n, getAnAux S neighb pt (P + 1) start [] =
              some (Except.error (AnError.cycleAt n)) ∧
            Relation.TransGen (stepRel S neighb) n n) := by
  have hterm := getAn_term_aux S P neighb pt hwf (P + 1) start [] hstart List.nodup_nil
    (by simp) (by simp)
  refine ⟨hterm, ?_⟩
  intro hpt y hreach hcyc
  cases hres : getAnAux S neighb pt (P + 1) start [] with
  | none => exact absurd hres hterm
  | some r =>
    cases r with
    | ok m =>
      exfalso
      obtain ⟨fuel2, path2, m2, _, hok2⟩ := getAnAux_ok_reach S neighb pt hreach (P + 1) [] m hres
      exact getAnAux_cycle_not_ok S neighb pt hcyc fuel2 path2 m2 hok2
    | error e =>
      cases e with
      | mismatch a b => exact absurd hres (getAn_no_mismatch S neighb pt hpt (P + 1) start [] a b)
      | cycleAt n =>
        exact ⟨n, rfl, getAn_cycle_sound S neighb pt (P + 1) start [] n (by simp) hres⟩

/-- C6 witness: the two-node cycle `0 → 1 → 0` with matching projection
types terminates and is rejected with a cycle error naming a node on the
cycle. -/
theorem agg_getAn_amended_w :
    getAnAux 0 wneighb (fun _ => (0 : ℕ)) 3 0 [] ≠ none ∧
      (∃ n, getAnAux 0 wneighb (fun _ => (0 : ℕ)) 3 0 [] =
          some (Except.error (AnError.cycleAt n)) ∧
        Relation.TransGen (stepRel 0 wneighb) n n) := by
  have hwf : ∀ n m, m ∈ wneighb n → m < 0 + 2 := by
    intro n m hm
    by_cases h1 : n = 0
    · simp [wneighb, h1] at hm; omega
    · by_cases h2 : n = 1
      · simp [wneighb, h1, h2] at hm; omega
      · simp [wneighb, h1, h2] at hm
  have h := agg_getAn_amended 0 2 wneighb (fun _ => (0 : ℕ)) 0 hwf (by omega)
  refine ⟨h.1, h.2 (fun _ _ => rfl) 0 Relation.ReflTransGen.refl ?_⟩
  exact Relation.TransGen.head ⟨Nat.le_refl 0, by decide⟩
    (Relation.TransGen.single ⟨Nat.zero_le 1, by decide⟩)

/-- C6 counterexample input: on the graph `0 → {1, 2}`, `2 → 2` with
node 1's projection type differing from node 0's, the reachable cycle at
node 2 is not reported: the walk raises the type-mismatch error naming
nodes 0 and 1, neither of which lies on any cycle. -/
theorem agg_getAn_mismatch_preempts_cycle :
    getAnAux 0 cneighb cpt 4 0 [] = some (Except.error (AnError.mismatch 0 1)) ∧
      Relation.ReflTransGen (stepRel 0 cneighb) 0 2 ∧
      Relation.TransGen (stepRel 0 cneighb) 2 2 ∧
      ∀ n ∈ anErrorNames (AnError.mismatch 0 1),
        ¬ Relation.TransGen (stepRel 0 cneighb) n n := by
  refine ⟨by simp [getAnAux, getAnChildren, cneighb, cpt], ?_, ?_, ?_⟩
  · exact Relation.ReflTransGen.single ⟨Nat.le_refl 0, by decide⟩
  · exact Relation.TransGen.single ⟨Nat.zero_le 2, by decide⟩
  · intro n hn
    have hn2 : n = 0 ∨ n = 1 := by simpa [anErrorNames] using hn
    rcases hn2 with rfl | rfl
    · intro hcon
      obtain ⟨z, _, hstep⟩ := Relation.TransGen.tail'_iff.mp hcon
      have hz : (0 : ℕ) ∈ cneighb z := hstep.2
      by_cases h1 : z = 0
      · simp [cneighb, h1] at hz
      · by_cases h2 : z = 2
        · simp [cneighb, h1, h2] at hz
        · simp [cneighb, h1, h2] at hz
    · intro hcon
      obtain ⟨z, hstep, _⟩ := Relation.TransGen.head'_iff.mp hcon
      have hz : z ∈ cneighb 1 := hstep.2
      simp [cneighb] at hz

end AGG

namespace AGG

theorem foldl_if_filter {β : Type} (c : ℕ → Prop) [DecidablePred c] (f : β → ℕ → β) :
    ∀ (l : List ℕ) (init : β),
      l.foldl (fun acc j => if c j then f acc j else acc) init =
        (l.filter fun j => decide (c j)).foldl f init := by
  intro l
  induction l with
  | nil => intro init; rfl
  | cons j rest ih =>
    intro init
    by_cases h : c j
    · simp [List.filter_cons, h, ih]
    · simp [List.filter_cons, h, ih]

theorem range_filter_eq_single (c : ℕ → Prop) [DecidablePred c] (j0 : ℕ)
    (hc : ∀ j, c j ↔ j = j0) :
    ∀ n, j0 < n → (List.range n).filter (fun j => decide (c j)) = [j0] := by
  intro n
  induction n with
  | zero => intro h; omega
  | succ m ih =>
    intro hj
    rw [List.range_succ, List.filter_append]
    by_cases hm : j0 = m
    · subst hm
      have h1 : (List.range j0).filter (fun j => decide (c j)) = [] := by
        rw [List.filter_eq_nil_iff]
        intro a ha
        simp only [decide_eq_true_eq]
        rw [hc a]
        have := List.mem_range.mp ha
        omega
      have h2 : ([j0].filter fun j => decide (c j)) = [j0] := by
        simp [List.filter_cons, (hc j0).mpr rfl]
      rw [h1, h2, List.nil_append]
    · have hj2 : j0 < m := by omega
      have h2 : ([m].filter fun j => decide (c j)) = [] := by
        have : ¬ c m := fun hh => hm ((hc m).mp hh).symm
        simp [List.filter_cons, this]
      rw [ih hj2, h2, List.append_nil]

theorem indicator_pos_iff (sp : ℕ → ℕ) (q j : ℕ) : 0 < indicator sp q j ↔ j = sp q := by
  by_cases hj : j = sp q
  · simp [indicator, hj]
  · simp [indicator, hj]

theorem doProjection_indicator (g : Game) (node q : ℕ) (sp : ℕ → ℕ)
    (h : sp q < g.actions q) :
    doProjection g node q (indicator sp q) = [(g.projection node q (sp q), 1)] := by
  rw [doProjection]
  rw [foldl_if_filter (fun j => 0 < indicator sp q j)
    (fun d j => trieInsertAdd d (g.projection node q j, indicator sp q j))
    (List.range (g.actions q)) []]
  rw [range_filter_eq_single _ (sp q) (indicator_pos_iff sp q) (g.actions q) h]
  simp [indicator, trieInsertAdd]

theorem trieMul_singleton (fs : List (ℤ → ℤ → ℤ)) (a b : Config) :
    trieMul fs [(a, 1)] [(b, 1)] = [(composeKey fs a b, 1)] := by
  simp [trieMul, trieInsertAdd]

theorem trieMul_fold_singletons (fs : List (ℤ → ℤ → ℤ)) (vec : ℕ → Config) :
    ∀ (t : List ℕ) (k0 : Config),
      t.foldl (fun pr q => trieMul fs pr [(vec q, 1)]) [(k0, 1)] =
        [(t.foldl (fun c q => composeKey fs c (vec q)) k0, 1)] := by
  intro t
  induction t with
  | nil => intro k0; rfl
  | cons q rest ih =>
    intro k0
    rw [List.foldl_cons, List.foldl_cons, trieMul_singleton]
    exact ih (composeKey fs k0 (vec q))

theorem trieInner_singleton (k : Config) (U : TrieMap) :
    trieInner [(k, 1)] U = (trieFind U k).getD 0 := by
  simp [trieInner]

theorem getMixedPayoff_indicator (g : Game) (p : ℕ) (sp : ℕ → ℕ)
    (hp : sp p < g.actions p) :
    getMixedPayoff g p (indicator sp) = getV g p (sp p) (indicator sp) := by
  rw [getMixedPayoff]
  rw [foldl_if_filter (fun act => 0 < indicator sp p act)
    (fun acc act => acc + indicator sp p act * getV g p act (indicator sp))
    (List.range (g.actions p)) 0]
  rw [range_filter_eq_single _ (sp p) (indicator_pos_iff sp p) (g.actions p) hp]
  simp [indicator]

theorem computeP_indicator (g : Game) (p a : ℕ) (sp : ℕ → ℕ) (tail : List ℕ)
    (hPo : g.Porder p a = p :: tail)
    (hproj : ∀ q ∈ tail, doProjection g (g.actionSets p a) q (indicator sp q) =
      [(g.projection (g.actionSets p a) q (sp q), 1)]) :
    computeP g p a (fun q => doProjection g (g.actionSets p a) q (indicator sp q)) =
      [(tail.foldl
          (fun c q => composeKey (g.projFunctions (g.actionSets p a)) c
            (g.projection (g.actionSets p a) q (sp q)))
          (g.projection (g.actionSets p a) p a), 1)] := by
  simp only [computeP]
  rw [hPo]
  simp only [List.drop_succ_cons, List.drop_zero]
  have hext := List.foldl_ext
    (fun pr q => trieMul (g.projFunctions (g.actionSets p a)) pr
      (doProjection g (g.actionSets p a) q (indicator sp q)))
    (fun pr q => trieMul (g.projFunctions (g.actionSets p a)) pr
      [(g.projection (g.actionSets p a) q (sp q), 1)])
    (trieInsertAdd [] (g.projection (g.actionSets p a) p a, 1))
    (fun pr q hq => by
      show trieMul (g.projFunctions (g.actionSets p a)) pr
          (doProjection g (g.actionSets p a) q (indicator sp q)) =
        trieMul (g.projFunctions (g.actionSets p a)) pr
          [(g.projection (g.actionSets p a) q (sp q), 1)]
      rw [hproj q hq])
  rw [hext]
  exact trieMul_fold_singletons (g.projFunctions (g.actionSets p a))
    (fun q => g.projection (g.actionSets p a) q (sp q)) tail
    (g.projection (g.actionSets p a) p a)

theorem composeKey_comm :
    ∀ (fs : List (ℤ → ℤ → ℤ)), (∀ f ∈ fs, ∀ x y, f x y = f y x) →
      ∀ a b, composeKey fs a b = composeKey fs b a := by
  intro fs
  induction fs with
  | nil => intro _ a b; cases a <;> cases b <;> rfl
  | cons f fs ih =>
    intro hc a b
    cases a with
    | nil => cases b <;> rfl
    | cons x xs =>
      cases b with
      | nil => rfl
      | cons y ys =>
        simp only [composeKey]
        rw [hc f (List.mem_cons_self _ _) x y,
          ih (fun f2 h => hc f2 (List.mem_cons_of_mem _ h)) xs ys]

theorem composeKey_assoc :
    ∀ (fs : List (ℤ → ℤ → ℤ)), (∀ f ∈ fs, ∀ x y z, f (f x y) z = f x (f y z)) →
      ∀ a b c, composeKey fs (composeKey fs a b) c = composeKey fs a (composeKey fs b c) := by
  intro fs
  induction fs with
  | nil => intro _ a b c; rfl
  | cons f fs ih =>
    intro hc a b c
    cases a with
    | nil => rfl
    | cons x xs =>
      cases b with
      | nil => rfl
      | cons y ys =>
        cases c with
        | nil => rfl
        | cons z zs =>
          simp only [composeKey]
          rw [hc f (List.mem_cons_self _ _) x y z,
            ih (fun f2 h => hc f2 (List.mem_cons_of_mem _ h)) xs ys zs]

theorem bigOpKey_perm (op : Config → Config → Config)
    (hcomm : ∀ a b, op a b = op b a)
    (hassoc : ∀ a b c, op (op a b) c = op a (op b c))
    {l1 l2 : List Config} (h : l1.Perm l2) : bigOpKey op l1 = bigOpKey op l2 := by
  haveI : RightCommutative op := ⟨fun b a1 a2 => by rw [hassoc, hcomm a1 a2, ← hassoc]⟩
  induction h with
  | nil => rfl
  | cons x h2 ih =>
    simp only [bigOpKey]
    exact h2.foldl_eq x
  | swap x y l =>
    simp only [bigOpKey, List.foldl_cons]
    rw [hcomm y x]
  | trans h1 h2 ih1 ih2 => exact ih1.trans ih2

/-- C1: on a constructed game (players' projection orderings are
permutations led by the player, the node's composers are commutative and
associative, and the pure configuration has a payoff entry — all
established at setup), the mixed payoff at the indicator profile of a
pure profile equals the pure payoff. -/
theorem agg_mixed_indicator_eq_pure (g : Game) (p : ℕ) (sp : ℕ → ℕ) (tail : List ℕ) (v : ℚ)
    (hp : p < g.numPlayers)
    (hsp : ∀ q < g.numPlayers, sp q < g.actions q)
    (hPo : g.Porder p (sp p) = p :: tail)
    (hperm : (p :: tail).Perm (List.range g.numPlayers))
    (hcomm : ∀ f ∈ g.projFunctions (g.actionSets p (sp p)), ∀ x y, f x y = f y x)
    (hassoc : ∀ f ∈ g.projFunctions (g.actionSets p (sp p)),
      ∀ x y z, f (f x y) z = f x (f y z))
    (hpure : getPurePayoff g p sp = Except.ok v) :
    getMixedPayoff g p (indicator sp) = v := by
  have hproj : ∀ q ∈ tail, doProjection g (g.actionSets p (sp p)) q (indicator sp q) =
      [(g.projection (g.actionSets p (sp p)) q (sp q), 1)] := by
    intro q hq
    have hqn : q < g.numPlayers :=
      List.mem_range.mp (hperm.subset (List.mem_cons_of_mem _ hq))
    exact doProjection_indicator g (g.actionSets p (sp p)) q sp (hsp q hqn)
  rw [getMixedPayoff_indicator g p sp (hsp p hp)]
  simp only [getV]
  rw [computeP_indicator g p (sp p) sp tail hPo hproj]
  rw [trieInner_singleton]
  have hrange : List.range g.numPlayers = 0 :: List.range' 1 (g.numPlayers - 1) := by
    obtain ⟨m, hm⟩ : ∃ m, g.numPlayers = m + 1 := ⟨g.numPlayers - 1, by omega⟩
    rw [hm, List.range_eq_range', List.range'_succ]
    simp
  have hkey : tail.foldl
      (fun c q => composeKey (g.projFunctions (g.actionSets p (sp p))) c
        (g.projection (g.actionSets p (sp p)) q (sp q)))
      (g.projection (g.actionSets p (sp p)) p (sp p)) =
      (List.range' 1 (g.numPlayers - 1)).foldl
        (fun c i => composeKey (g.projFunctions (g.actionSets p (sp p))) c
          (g.projection (g.actionSets p (sp p)) i (sp i)))
        (g.projection (g.actionSets p (sp p)) 0 (sp 0)) := by
    have hc2 := composeKey_comm (g.projFunctions (g.actionSets p (sp p))) hcomm
    have ha2 := composeKey_assoc (g.projFunctions (g.actionSets p (sp p))) hassoc
    have h1 : tail.foldl
        (fun c q => composeKey (g.projFunctions (g.actionSets p (sp p))) c
          (g.projection (g.actionSets p (sp p)) q (sp q)))
        (g.projection (g.actionSets p (sp p)) p (sp p)) =
        bigOpKey (composeKey (g.projFunctions (g.actionSets p (sp p))))
          ((p :: tail).map fun q => g.projection (g.actionSets p (sp p)) q (sp q)) := by
      rw [List.map_cons]
      simp only [bigOpKey]
      rw [List.foldl_map]
    have h2 : (List.range' 1 (g.numPlayers - 1)).foldl
        (fun c i => composeKey (g.projFunctions (g.actionSets p (sp p))) c
          (g.projection (g.actionSets p (sp p)) i (sp i)))
        (g.projection (g.actionSets p (sp p)) 0 (sp 0)) =
        bigOpKey (composeKey (g.projFunctions (g.actionSets p (sp p))))
          ((List.range g.numPlayers).map fun q =>
            g.projection (g.actionSets p (sp p)) q (sp q)) := by
      rw [hrange, List.map_cons]
      simp only [bigOpKey]
      rw [List.foldl_map]
    rw [h1, h2]
    exact bigOpKey_perm _ hc2 ha2
      (hperm.map fun q => g.projection (g.actionSets p (sp p)) q (sp q))
  rw [hkey]
  simp only [getPurePayoff] at hpure
  split at hpure
  · next w hfind =>
    obtain rfl : w = v := Except.ok.inj hpure
    rw [hfind]
    rfl
  · next hfind => exact Except.noConfusion hpure

/-- C1 witness: on `G1` with both players playing action 0 the pure
payoff is 2 and the indicator mixed payoff is 2. -/
theorem agg_mixed_indicator_eq_pure_w :
    getPurePayoff G1 0 sp0 = Except.ok 2 ∧ getMixedPayoff G1 0 (indicator sp0) = 2 := by
  have hcomm : ∀ f ∈ G1.projFunctions (G1.actionSets 0 (sp0 0)), ∀ x y, f x y = f y x := by
    intro f hf x y
    rcases (by simpa [G1] using hf : f = addF ∨ f = addF) with rfl | rfl <;>
      simp [addF, Int.add_comm]
  have hassoc : ∀ f ∈ G1.projFunctions (G1.actionSets 0 (sp0 0)),
      ∀ x y z, f (f x y) z = f x (f y z) := by
    intro f hf x y z
    rcases (by simpa [G1] using hf : f = addF ∨ f = addF) with rfl | rfl <;>
      simp [addF, Int.add_assoc]
  refine ⟨rfl, agg_mixed_indicator_eq_pure G1 0 sp0 [1] 2 (by decide)
    (fun q _ => by show (0 : ℕ) < 2; decide) rfl (by decide) hcomm hassoc rfl⟩

end AGG
